import Mathlib

/-!
# Verification of the string-case-conversion library

This file gives a shallow embedding in Lean 4 of the four JavaScript
conversion functions of the repository and proves properties about them:

* `toKebabCase`   — lenient kebab-case converter (`src/unnamed/part_000`);
* `Strict.toCamelCase` — strict camelCase converter with an
  `preserveAcronyms` option, throwing `TypeError` on non-string input
  (`src/unnamed/part_001`, duplicated verbatim in `src/refined_prompt.js`);
* `toDotCase`     — strict dot.case converter (`src/unnamed/part_001`);
* `Lenient.toCamelCase` — lenient camelCase converter
  (`src/unnamed/part_002`).

Strings are modelled as `List Char` of Unicode code points, matching
JavaScript's view of a string as a sequence of code units (all inputs of
interest live in the BMP, where the two notions coincide).  The regex
operations the source uses are embedded as equivalent recursive functions
on `List Char`; each doc comment below records the source regex it
implements.  JavaScript's `toLowerCase`/`toUpperCase` apply Unicode case
mapping; they are modelled here on the ASCII range (identity on all other
characters), which agrees with JavaScript on every character appearing in
this development, and in particular on every character the source's
(ASCII-only) regex character classes can match.
-/

namespace CaseConv

/-- Strings are lists of Unicode code points. -/
abbrev Str := List Char

/-- Code-point list of a Lean string literal (used only to state
concrete examples readably). -/
def strL (s : String) : Str := s.data

/-- The regex class `[A-Z]`. -/
def isAsciiUpper (c : Char) : Bool := decide (65 ≤ c.toNat ∧ c.toNat ≤ 90)

/-- The regex class `[a-z]`. -/
def isAsciiLower (c : Char) : Bool := decide (97 ≤ c.toNat ∧ c.toNat ≤ 122)

/-- The regex class `[0-9]`. -/
def isAsciiDigit (c : Char) : Bool := decide (48 ≤ c.toNat ∧ c.toNat ≤ 57)

/-- The regex class `[a-zA-Z0-9]`. -/
def isAsciiAlnum (c : Char) : Bool := isAsciiUpper c || isAsciiLower c || isAsciiDigit c

/-- The regex class `\s` of JavaScript: space, tab, line terminators and
the Unicode space separators, ` `, ` `, ` `–` `,
` `, ` `, ` `, ` `, `　`, `﻿`.  This is also
the character set removed by `String.prototype.trim`. -/
def isJsSpace (c : Char) : Bool :=
  decide (c.toNat = 9 ∨ c.toNat = 10 ∨ c.toNat = 11 ∨ c.toNat = 12 ∨ c.toNat = 13 ∨
    c.toNat = 32 ∨ c.toNat = 160 ∨ c.toNat = 5760 ∨
    (8192 ≤ c.toNat ∧ c.toNat ≤ 8202) ∨ c.toNat = 8232 ∨ c.toNat = 8233 ∨
    c.toNat = 8239 ∨ c.toNat = 8287 ∨ c.toNat = 12288 ∨ c.toNat = 65279)

/-- The separator class `[\s_-]` shared by the kebab and camel variants
(code points 95 `_` and 45 `-`). -/
def isSep (c : Char) : Bool := isJsSpace c || decide (c.toNat = 95) || decide (c.toNat = 45)

/-- The separator class `[\s_\-.]` of the dot variant (code point 46 `.`). -/
def isSepDot (c : Char) : Bool := isSep c || decide (c.toNat = 46)

/-- `String.prototype.toLowerCase`, modelled on the ASCII range
(identity elsewhere, see the header comment). -/
def jsToLowerChar (c : Char) : Char :=
  if isAsciiUpper c then Char.ofNat (c.toNat + 32) else c

/-- `String.prototype.toUpperCase`, modelled on the ASCII range
(identity elsewhere, see the header comment). -/
def jsToUpperChar (c : Char) : Char :=
  if isAsciiLower c then Char.ofNat (c.toNat - 32) else c

/-- `String.prototype.trim`: drop leading and trailing `\s` characters. -/
def trim (s : Str) : Str :=
  ((s.dropWhile isJsSpace).reverse.dropWhile isJsSpace).reverse

/-- `str.replace(/([a-z])([A-Z])/g, '$1 $2')`.  A match consumes the
uppercase character, which can never start the `[a-z]` group of a
following match, so the global replace is exactly: insert a space between
every adjacent lowercase–uppercase pair. -/
def camelBoundaryLU : Str → Str
  | c1 :: c2 :: rest =>
    if isAsciiLower c1 && isAsciiUpper c2 then
      c1 :: ' ' :: camelBoundaryLU (c2 :: rest)
    else
      c1 :: camelBoundaryLU (c2 :: rest)
  | s => s

/-- `str.replace(/([a-z0-9])([A-Z])/g, '$1 $2')`.  As for
`camelBoundaryLU`, matches cannot overlap, so the global replace inserts
a space between every adjacent lowercase-or-digit–uppercase pair. -/
def camelBoundaryLDU : Str → Str
  | c1 :: c2 :: rest =>
    if (isAsciiLower c1 || isAsciiDigit c1) && isAsciiUpper c2 then
      c1 :: ' ' :: camelBoundaryLDU (c2 :: rest)
    else
      c1 :: camelBoundaryLDU (c2 :: rest)
  | s => s

/-- `str.replace(/([A-Z]+)([A-Z][a-z])/g, '$1 $2')`.  With the greedy
`[A-Z]+` group, the replace inserts a space exactly between an adjacent
uppercase–uppercase pair whose following character is lowercase (the
last two uppercase letters of a run of two or more followed by a
lowercase letter). -/
def acronymBoundary : Str → Str
  | c1 :: c2 :: c3 :: rest =>
    if isAsciiUpper c1 && isAsciiUpper c2 && isAsciiLower c3 then
      c1 :: ' ' :: acronymBoundary (c2 :: c3 :: rest)
    else
      c1 :: acronymBoundary (c2 :: c3 :: rest)
  | s => s

/-- Collapse every run of two or more spaces to a single space
(helper for `collapseSeps`). -/
def squeezeSpaces : Str → Str
  | c1 :: c2 :: rest =>
    if c1 = ' ' && c2 = ' ' then squeezeSpaces (c2 :: rest)
    else c1 :: squeezeSpaces (c2 :: rest)
  | s => s

/-- `str.replace(/[<seps>]+/g, ' ')`: every separator becomes a space and
each run of separators collapses to a single space. -/
def collapseSeps (p : Char → Bool) (s : Str) : Str :=
  squeezeSpaces (s.map fun c => if p c then ' ' else c)

/-- `str.split(sep)` for a one-character separator string, with
JavaScript semantics: `"".split(sep) = [""]`, and adjacent, leading or
trailing separators produce empty components. -/
def jsSplitChar (sep : Char) : Str → List Str
  | [] => [[]]
  | c :: rest =>
    if c = sep then [] :: jsSplitChar sep rest
    else
      match jsSplitChar sep rest with
      | w :: ws => (c :: w) :: ws
      | [] => [[c]]

/-- `str.split(/[<seps>]+/)`: equivalent to collapsing each separator run
to a single space and splitting on that space (both yield the components
between maximal separator runs, with an empty component at an end that
begins or ends with a run, and `[""]` on the empty string). -/
def jsSplitRuns (p : Char → Bool) (s : Str) : List Str :=
  jsSplitChar ' ' (collapseSeps p s)

/-- `words.join(sep)` for a one-character separator string. -/
def joinWith (sep : Char) : List Str → Str
  | [] => []
  | [w] => w
  | w :: ws => w ++ sep :: joinWith sep ws

/-- A JavaScript value as far as these functions observe it: the
`typeof v === 'string'` check is the only inspection a non-string value
ever receives. -/
inductive JSValue where
  | str : Str → JSValue
  | num : Int → JSValue
  | boolean : Bool → JSValue
  | null : JSValue
  | undefined : JSValue

/-- `typeof v === 'string'`. -/
def JSValue.isString : JSValue → Bool
  | .str _ => true
  | _ => false

/-! ## `toKebabCase` (src/unnamed/part_000, lines 12–41) -/

/-- The character class kept by line 28 of part_000:
`[a-zA-Z0-9\s-]` (everything else is deleted; code point 45 is `-`). -/
def kebabKeep (c : Char) : Bool := isAsciiAlnum c || isJsSpace c || decide (c.toNat = 45)

/-- The word list of `toKebabCase` on an (already string) input: lines
19–34 of part_000 — trim, camel boundary `([a-z0-9])([A-Z])`, underscores
to spaces, strip characters outside `[a-zA-Z0-9\s-]`, collapse `[\s_-]+`
to one space, split on spaces and drop empty words. -/
def kebabWords (input : Str) : List Str :=
  (jsSplitChar ' '
    (collapseSeps isSep
      (List.filter kebabKeep
        ((camelBoundaryLDU (trim input)).map fun c => if c = '_' then ' ' else c)))).filter
    (fun w => !w.isEmpty)

/-- Body of `toKebabCase` for a string input (part_000 lines 14–40):
empty-after-trim check, the `kebabWords` pipeline, then
`words.join('-').toLowerCase()`. -/
def kebabOfString (input : Str) : Str :=
  if (trim input).isEmpty then []
  else
    let words := kebabWords input
    if words.isEmpty then []
    else (joinWith '-' words).map jsToLowerChar

/-- `toKebabCase` (part_000): non-string input returns the empty
string. -/
def toKebabCase : JSValue → Str
  | .str input => kebabOfString input
  | _ => []

/-! ## Strict `toCamelCase` (src/unnamed/part_001 lines 21–66,
duplicated in src/refined_prompt.js lines 21–66) -/

/-- The options object of the strict `toCamelCase`. -/
structure Options where
  preserveAcronyms : Bool := false

/-- `splitCamel` of part_001: acronym boundary `([A-Z]+)([A-Z][a-z])`,
then camel boundary `([a-z0-9])([A-Z])`, then `split(' ')`. -/
def splitCamel (word : Str) : List Str :=
  jsSplitChar ' ' (camelBoundaryLDU (acronymBoundary word))

/-- `resultWords` of part_001 computed from the trimmed input: camel
boundary `([a-z])([A-Z])`, `split(/[\s_-]+/)`, then each non-empty word
is split further by `splitCamel`, keeping the non-empty pieces. -/
def camelWordsOfTrimmed (str : Str) : List Str :=
  ((jsSplitRuns isSep (camelBoundaryLU str)).filter (fun w => !w.isEmpty)).flatMap
    (fun w => (splitCamel w).filter (fun sub => !sub.isEmpty))

/-- The token list of the strict `toCamelCase` on a raw input. -/
def camelWords (input : Str) : List Str := camelWordsOfTrimmed (trim input)

/-- The per-word mapping of part_001 lines 56–65.  The source test
`/^[A-Z0-9]+$/.test(word)` demands a non-empty all-`[A-Z0-9]` word; with
the conjunct `word.length > 1` this is equivalent to the `List.all`
below.  In the default branch, `lower.charAt(0).toUpperCase() +
lower.slice(1)` of an empty `lower` is the empty string. -/
def camelMapWord (preserveAcronyms : Bool) (i : Nat) (w : Str) : Str :=
  if preserveAcronyms && w.all (fun c => isAsciiUpper c || isAsciiDigit c) &&
      decide (1 < w.length) then
    if i = 0 then w.map jsToLowerChar else w
  else
    let lower := w.map jsToLowerChar
    if i = 0 then lower
    else
      match lower with
      | [] => []
      | c :: rest => jsToUpperChar c :: rest

/-- Body of the strict `toCamelCase` for a string input (part_001 lines
29–66): trim, the `!str || /^[\s_\-]+$/.test(str)` early return, the
tokenization, the `resultWords.length === 0` early return, then the
indexed word mapping joined with `''`. -/
def camelCaseOfString (input : Str) (options : Options) : Str :=
  let str := trim input
  if str.isEmpty || str.all isSep then []
  else
    let resultWords := camelWordsOfTrimmed str
    if resultWords.isEmpty then []
    else (resultWords.mapIdx (fun i w => camelMapWord options.preserveAcronyms i w)).flatten

namespace Strict

/-- The strict `toCamelCase` (part_001 / refined_prompt.js): throws
`TypeError('Input must be a string.')` on non-string input, modelled as
`Except.error`.  The source gives `options` the default value `{}`
(so `preserveAcronyms` defaults to `false`); here the caller passes the
options explicitly. -/
def toCamelCase (v : JSValue) (options : Options) : Except String Str :=
  match v with
  | .str input => .ok (camelCaseOfString input options)
  | _ => .error "Input must be a string."

end Strict

/-! ## `toDotCase` (src/unnamed/part_001, lines 91–115) -/

/-- The word list of `toDotCase` from the trimmed input (part_001 lines
103–111): camel boundary `([a-z])([A-Z])`, acronym boundary
`([A-Z]+)([A-Z][a-z])`, collapse `[\s_\-.]+` to one space, split on
spaces and drop empty words. -/
def dotWordsOfTrimmed (str : Str) : List Str :=
  (jsSplitChar ' '
    (collapseSeps isSepDot (acronymBoundary (camelBoundaryLU str)))).filter
    (fun w => !w.isEmpty)

/-- The token list of `toDotCase` on a raw input. -/
def dotWords (input : Str) : List Str := dotWordsOfTrimmed (trim input)

/-- Body of `toDotCase` for a string input (part_001 lines 97–114):
trim, the `!str || /^[\s_\-.]+$/.test(str)` early return, tokenization,
then `words.map(w => w.toLowerCase()).join('.')`. -/
def dotOfString (input : Str) : Str :=
  let str := trim input
  if str.isEmpty || str.all isSepDot then []
  else joinWith '.' ((dotWordsOfTrimmed str).map (fun w => w.map jsToLowerChar))

/-- `toDotCase` (part_001): throws `TypeError('Input must be a
string.')` on non-string input, modelled as `Except.error`. -/
def toDotCase : JSValue → Except String Str
  | .str input => .ok (dotOfString input)
  | _ => .error "Input must be a string."

/-! ## Lenient `toCamelCase` (src/unnamed/part_002) -/

/-- The word list of the lenient `toCamelCase` (part_002 lines 4–11):
trim, lowercase the whole string, collapse `[\s_-]+` to one space, then
`split(' ')` (empty components are kept — the source indexes into this
array). -/
def lenientWords (input : Str) : List Str :=
  jsSplitChar ' ' (collapseSeps isSep ((trim input).map jsToLowerChar))

/-- Body of the lenient `toCamelCase` for a string input (part_002 lines
4–21): every word except the first has its first character uppercased
(when non-empty), and the words are joined with `''`. -/
def lenientOfString (input : Str) : Str :=
  ((lenientWords input).mapIdx (fun i w =>
    if i = 0 then w
    else
      match w with
      | [] => []
      | c :: rest => jsToUpperChar c :: rest)).flatten

namespace Lenient

/-- The lenient `toCamelCase` (part_002): non-string input returns the
empty string. -/
def toCamelCase : JSValue → Str
  | .str input => lenientOfString input
  | _ => []

end Lenient

/-! ## Output predicates

Decidable predicates used to state the properties of the outputs. -/

/-- No two adjacent occurrences of `x`. -/
def noConsec (x : Char) : Str → Bool
  | c1 :: c2 :: rest => !(c1 = x && c2 = x) && noConsec x (c2 :: rest)
  | _ => true

/-- The first character is not `x`. -/
def noLeadSep (x : Char) : Str → Bool
  | [] => true
  | c :: _ => !(c = x)

/-- The last character is not `x`. -/
def noTrailSep (x : Char) (s : Str) : Bool := noLeadSep x s.reverse

/-- A character of a kebab output word: lowercase ASCII letter or digit. -/
def isKebabWordChar (c : Char) : Bool := isAsciiLower c || isAsciiDigit c

/-- A character of a dot output word: not a dot-separator and not
uppercase ASCII. -/
def isDotWordChar (c : Char) : Bool := !isSepDot c && !isAsciiUpper c

/-! ## Source examples (the console.log expectations of the source) -/

example : kebabOfString (strL "Hello World") = strL "hello-world" := by decide
example : kebabOfString (strL "camelCaseExample") = strL "camel-case-example" := by decide
example : kebabOfString (strL "snake_case_example") = strL "snake-case-example" := by decide
example : kebabOfString (strL "  Multiple   spaces ") = strL "multiple-spaces" := by decide
example : kebabOfString (strL "Already--kebab--case") = strL "already-kebab-case" := by decide
example : kebabOfString (strL "Special!@# Chars$$$") = strL "special-chars" := by decide
example : kebabOfString (strL "___---___") = strL "" := by decide

example : camelCaseOfString (strL "  first_name  ") {} = strL "firstName" := by decide
example : camelCaseOfString (strL "user--id") {} = strL "userId" := by decide
example : camelCaseOfString (strL "SCREEN_NAME") {} = strL "screenName" := by decide
example : camelCaseOfString (strL "mobile-number") {} = strL "mobileNumber" := by decide
example : camelCaseOfString (strL "myHTTPServer") {} = strL "myHttpServer" := by decide
example : camelCaseOfString (strL "  ---___   ") {} = strL "" := by decide
example : camelCaseOfString (strL "FOO_BAR") ⟨true⟩ = strL "fooBAR" := by decide

example : dotOfString (strL "First Name") = strL "first.name" := by decide
example : dotOfString (strL "user_id") = strL "user.id" := by decide
example : dotOfString (strL "mobile-number") = strL "mobile.number" := by decide
example : dotOfString (strL "myHTTPServer") = strL "my.http.server" := by decide
example : dotOfString (strL "SCREEN_NAME") = strL "screen.name" := by decide

example : lenientOfString (strL "first name") = strL "firstName" := by decide
example : lenientOfString (strL "user_id") = strL "userId" := by decide
example : lenientOfString (strL "SCREEN_NAME") = strL "screenName" := by decide
example : lenientOfString (strL "mobile-number") = strL "mobileNumber" := by decide

/-! ## Character-level lemmas -/

theorem toNat_ofNat_valid (n : Nat) (h : n < 55296) : (Char.ofNat n).toNat = n := by
  unfold Char.ofNat
  rw [dif_pos (Or.inl h)]
  simp [Char.ofNatAux, Char.toNat, UInt32.toNat, UInt32.ofNat']

theorem char_eq_iff_toNat (a b : Char) : a = b ↔ a.toNat = b.toNat := by
  constructor
  · intro h; rw [h]
  · intro h
    apply Char.ext
    apply UInt32.eq_of_val_eq
    apply Fin.eq_of_val_eq
    simpa [Char.toNat, UInt32.toNat] using h

theorem isAsciiUpper_iff (c : Char) :
    isAsciiUpper c = true ↔ 65 ≤ c.toNat ∧ c.toNat ≤ 90 := by
  simp [isAsciiUpper]

theorem jsToLowerChar_toNat (c : Char) :
    (jsToLowerChar c).toNat = if isAsciiUpper c then c.toNat + 32 else c.toNat := by
  unfold jsToLowerChar
  by_cases h : isAsciiUpper c = true
  · rw [if_pos h, if_pos h]
    have hb : c.toNat + 32 < 55296 := by
      have := (isAsciiUpper_iff c).1 h
      omega
    exact toNat_ofNat_valid _ hb
  · rw [if_neg h, if_neg h]

theorem jsToUpperChar_toNat (c : Char) :
    (jsToUpperChar c).toNat = if isAsciiLower c then c.toNat - 32 else c.toNat := by
  unfold jsToUpperChar
  by_cases h : isAsciiLower c = true
  · rw [if_pos h, if_pos h]
    have hl : 97 ≤ c.toNat ∧ c.toNat ≤ 122 := by simpa [isAsciiLower] using h
    have hb : c.toNat - 32 < 55296 := by omega
    exact toNat_ofNat_valid _ hb
  · rw [if_neg h, if_neg h]

theorem jsToLowerChar_eq_self (c : Char) (h : isAsciiUpper c = false) :
    jsToLowerChar c = c := by
  unfold jsToLowerChar
  rw [if_neg (by simp [h])]

/-- Lowercasing never yields an uppercase ASCII character. -/
theorem lower_not_upper (c : Char) : isAsciiUpper (jsToLowerChar c) = false := by
  have h := jsToLowerChar_toNat c
  by_cases hu : isAsciiUpper c = true
  · rw [if_pos hu] at h
    have := (isAsciiUpper_iff c).1 hu
    simp only [isAsciiUpper, h, decide_eq_false_iff_not]
    omega
  · rw [if_neg hu] at h
    have hn := (isAsciiUpper_iff c)
    simp only [isAsciiUpper, h, decide_eq_false_iff_not] at *
    intro hc
    exact hu ((isAsciiUpper_iff c).2 hc)

/-- Lowercasing an alphanumeric character yields a lowercase letter or a
digit. -/
theorem lower_alnum (c : Char) (h : isAsciiAlnum c = true) :
    (isAsciiLower (jsToLowerChar c) || isAsciiDigit (jsToLowerChar c)) = true := by
  have ht := jsToLowerChar_toNat c
  simp only [isAsciiAlnum, isAsciiUpper, isAsciiLower, isAsciiDigit, Bool.or_eq_true,
    decide_eq_true_eq] at h ⊢
  by_cases hu : isAsciiUpper c = true
  · rw [if_pos hu] at ht
    have := (isAsciiUpper_iff c).1 hu
    omega
  · rw [if_neg hu] at ht
    have hnu : ¬(65 ≤ c.toNat ∧ c.toNat ≤ 90) := fun hc => hu ((isAsciiUpper_iff c).2 hc)
    omega

theorem isJsSpace_lower (c : Char) : isJsSpace (jsToLowerChar c) = isJsSpace c := by
  have ht := jsToLowerChar_toNat c
  by_cases hu : isAsciiUpper c = true
  · rw [if_pos hu] at ht
    have := (isAsciiUpper_iff c).1 hu
    simp only [isJsSpace]
    rw [decide_eq_decide]
    omega
  · rw [jsToLowerChar_eq_self c (by simpa using hu)]

theorem isSep_lower (c : Char) : isSep (jsToLowerChar c) = isSep c := by
  have ht := jsToLowerChar_toNat c
  by_cases hu : isAsciiUpper c = true
  · rw [if_pos hu] at ht
    have hr := (isAsciiUpper_iff c).1 hu
    simp only [isSep, isJsSpace, ht]
    rw [Bool.eq_iff_iff]
    simp only [Bool.or_eq_true, decide_eq_true_eq]
    omega
  · rw [jsToLowerChar_eq_self c (by simpa using hu)]

theorem isSepDot_lower (c : Char) : isSepDot (jsToLowerChar c) = isSepDot c := by
  have ht := jsToLowerChar_toNat c
  by_cases hu : isAsciiUpper c = true
  · rw [if_pos hu] at ht
    have hr := (isAsciiUpper_iff c).1 hu
    simp only [isSepDot, isSep, isJsSpace, ht]
    rw [Bool.eq_iff_iff]
    simp only [Bool.or_eq_true, decide_eq_true_eq]
    omega
  · rw [jsToLowerChar_eq_self c (by simpa using hu)]

theorem isSep_upper (c : Char) : isSep (jsToUpperChar c) = isSep c := by
  have ht := jsToUpperChar_toNat c
  by_cases hl : isAsciiLower c = true
  · rw [if_pos hl] at ht
    have hr : 97 ≤ c.toNat ∧ c.toNat ≤ 122 := by simpa [isAsciiLower] using hl
    simp only [isSep, isJsSpace, ht]
    rw [Bool.eq_iff_iff]
    simp only [Bool.or_eq_true, decide_eq_true_eq]
    omega
  · unfold jsToUpperChar
    rw [if_neg (by simp_all)]

theorem isSepDot_upper (c : Char) : isSepDot (jsToUpperChar c) = isSepDot c := by
  have ht := jsToUpperChar_toNat c
  by_cases hl : isAsciiLower c = true
  · rw [if_pos hl] at ht
    have hr : 97 ≤ c.toNat ∧ c.toNat ≤ 122 := by simpa [isAsciiLower] using hl
    simp only [isSepDot, isSep, isJsSpace, ht]
    rw [Bool.eq_iff_iff]
    simp only [Bool.or_eq_true, decide_eq_true_eq]
    omega
  · unfold jsToUpperChar
    rw [if_neg (by simp_all)]

/-! ## List-level lemmas -/

theorem mem_squeezeSpaces {c : Char} : ∀ {s : Str}, c ∈ squeezeSpaces s → c ∈ s := by
  intro s
  induction s with
  | nil => intro h; simp [squeezeSpaces] at h
  | cons c1 rest ih =>
    cases rest with
    | nil => intro h; simp [squeezeSpaces] at h; simp [h]
    | cons c2 rest2 =>
      intro h
      simp only [squeezeSpaces] at h
      split at h
      · exact List.mem_cons_of_mem _ (ih h)
      · rcases List.mem_cons.mp h with h1 | h2
        · exact h1 ▸ List.mem_cons_self _ _
        · exact List.mem_cons_of_mem _ (ih h2)

theorem squeezeSpaces_eq_self : ∀ {s : Str}, noConsec ' ' s = true → squeezeSpaces s = s := by
  intro s
  induction s with
  | nil => intro _; rfl
  | cons c1 rest ih =>
    cases rest with
    | nil => intro _; rfl
    | cons c2 rest2 =>
      intro h
      simp only [noConsec, Bool.and_eq_true, Bool.not_eq_true'] at h
      obtain ⟨h1, h2⟩ := h
      have h2t : noConsec ' ' (c2 :: rest2) = true := by
        simpa [noConsec] using h2
      simp only [squeezeSpaces]
      rw [if_neg (by rw [h1]; exact Bool.false_ne_true), ih h2t]

theorem noConsec_of_all_ne {x : Char} : ∀ {s : Str}, (∀ c ∈ s, ¬ c = x) → noConsec x s = true := by
  intro s
  induction s with
  | nil => intro _; rfl
  | cons c1 rest ih =>
    cases rest with
    | nil => intro _; rfl
    | cons c2 rest2 =>
      intro h
      simp only [noConsec, Bool.and_eq_true]
      refine ⟨?_, ih (fun c hc => h c (List.mem_cons_of_mem _ hc))⟩
      simp [h c1 (List.mem_cons_self _ _)]

theorem jsSplitChar_ne_nil (sep : Char) : ∀ (s : Str), jsSplitChar sep s ≠ [] := by
  intro s
  induction s with
  | nil => simp [jsSplitChar]
  | cons c rest ih =>
    by_cases hc : c = sep
    · simp [jsSplitChar, hc]
    · simp only [jsSplitChar, if_neg hc]
      cases hsp : jsSplitChar sep rest with
      | nil => simp
      | cons w ws => simp

theorem mem_of_mem_jsSplitChar {sep c : Char} :
    ∀ {s : Str} {w : Str}, w ∈ jsSplitChar sep s → c ∈ w → c ∈ s ∧ ¬ c = sep := by
  intro s
  induction s with
  | nil =>
    intro w hw hc
    simp only [jsSplitChar, List.mem_singleton] at hw
    rw [hw] at hc
    exact absurd hc (List.not_mem_nil c)
  | cons d rest ih =>
    intro w hw hc
    by_cases hd : d = sep
    · rw [jsSplitChar, if_pos hd] at hw
      rcases List.mem_cons.mp hw with h1 | h2
      · rw [h1] at hc; exact absurd hc (List.not_mem_nil c)
      · obtain ⟨hm, hs⟩ := ih h2 hc
        exact ⟨List.mem_cons_of_mem _ hm, hs⟩
    · rw [jsSplitChar, if_neg hd] at hw
      cases hsp : jsSplitChar sep rest with
      | nil => exact absurd hsp (jsSplitChar_ne_nil sep rest)
      | cons w0 ws0 =>
        rw [hsp] at hw
        rcases List.mem_cons.mp hw with h1 | h2
        · rw [h1] at hc
          rcases List.mem_cons.mp hc with hcd | hcw0
          · exact ⟨hcd ▸ List.mem_cons_self _ _, hcd ▸ hd⟩
          · obtain ⟨hm, hs⟩ := ih (hsp ▸ List.mem_cons_self w0 ws0) hcw0
            exact ⟨List.mem_cons_of_mem _ hm, hs⟩
        · obtain ⟨hm, hs⟩ := ih (hsp ▸ List.mem_cons_of_mem w0 h2) hc
          exact ⟨List.mem_cons_of_mem _ hm, hs⟩

theorem joinWith_cons_cons (sep : Char) (w w2 : Str) (ws : List Str) :
    joinWith sep (w :: w2 :: ws) = w ++ sep :: joinWith sep (w2 :: ws) := rfl

theorem jsSplitChar_append {sep : Char} :
    ∀ {w : Str}, (∀ c ∈ w, ¬ c = sep) →
    ∀ {l rest : Str} {ws : List Str}, jsSplitChar sep l = rest :: ws →
    jsSplitChar sep (w ++ l) = (w ++ rest) :: ws := by
  intro w
  induction w with
  | nil => intro _ l rest ws h; simpa using h
  | cons a w2 ih =>
    intro hall l rest ws h
    have ha : ¬ a = sep := hall a (List.mem_cons_self _ _)
    have ih2 := ih (fun c hc => hall c (List.mem_cons_of_mem _ hc)) h
    rw [List.cons_append, jsSplitChar, if_neg ha, ih2]
    rfl

theorem jsSplitChar_joinWith {sep : Char} :
    ∀ {ws : List Str}, ws ≠ [] → (∀ w ∈ ws, ∀ c ∈ w, ¬ c = sep) →
    jsSplitChar sep (joinWith sep ws) = ws := by
  intro ws
  induction ws with
  | nil => intro h _; exact absurd rfl h
  | cons w ws2 ih =>
    intro _ hall
    cases ws2 with
    | nil =>
      have hnil : jsSplitChar sep ([] : Str) = ([] : Str) :: ([] : List Str) := rfl
      have hres := jsSplitChar_append (hall w (List.mem_cons_self _ _)) hnil
      simpa using hres
    | cons w2 ws3 =>
      have hJ : jsSplitChar sep (joinWith sep (w2 :: ws3)) = w2 :: ws3 :=
        ih (by simp) (fun v hv => hall v (List.mem_cons_of_mem _ hv))
      have hsepJ : jsSplitChar sep (sep :: joinWith sep (w2 :: ws3)) =
          [] :: w2 :: ws3 := by
        rw [jsSplitChar, if_pos rfl, hJ]
      have hres := jsSplitChar_append (hall w (List.mem_cons_self _ _)) hsepJ
      rw [joinWith_cons_cons]
      simpa using hres

theorem joinWith_map (f : Char → Char) (sep : Char) :
    ∀ (ws : List Str), (joinWith sep ws).map f = joinWith (f sep) (ws.map (List.map f)) := by
  intro ws
  induction ws with
  | nil => rfl
  | cons w ws2 ih =>
    cases ws2 with
    | nil => rfl
    | cons w2 ws3 =>
      rw [joinWith_cons_cons, List.map_append, List.map_cons, ih, List.map_cons,
        List.map_cons, List.map_cons, joinWith_cons_cons]

theorem mem_joinWith {c sep : Char} :
    ∀ {ws : List Str}, c ∈ joinWith sep ws → c = sep ∨ ∃ w ∈ ws, c ∈ w := by
  intro ws
  induction ws with
  | nil => intro h; exact absurd h (List.not_mem_nil c)
  | cons w ws2 ih =>
    cases ws2 with
    | nil =>
      intro h
      right
      exact ⟨w, List.mem_cons_self _ _, h⟩
    | cons w2 ws3 =>
      intro h
      rw [joinWith_cons_cons] at h
      rcases List.mem_append.mp h with h1 | h2
      · right; exact ⟨w, List.mem_cons_self _ _, h1⟩
      · rcases List.mem_cons.mp h2 with h3 | h4
        · left; exact h3
        · rcases ih h4 with h5 | ⟨v, hv, hcv⟩
          · left; exact h5
          · right; exact ⟨v, List.mem_cons_of_mem _ hv, hcv⟩

theorem joinWith_ne_nil {sep : Char} {w : Str} (hw : w ≠ []) :
    ∀ (ws : List Str), joinWith sep (w :: ws) ≠ [] := by
  intro ws
  cases ws with
  | nil => simpa [joinWith] using hw
  | cons w2 ws2 =>
    rw [joinWith_cons_cons]
    cases w with
    | nil => exact absurd rfl hw
    | cons a w3 => simp

theorem noLeadSep_of_all_ne {x : Char} {s : Str} (h : ∀ c ∈ s, ¬ c = x) :
    noLeadSep x s = true := by
  cases s with
  | nil => rfl
  | cons c rest => simp [noLeadSep, h c (List.mem_cons_self _ _)]

theorem noLeadSep_append {x : Char} {a b : Str} (ha : a ≠ []) :
    noLeadSep x (a ++ b) = noLeadSep x a := by
  cases a with
  | nil => exact absurd rfl ha
  | cons c rest => rfl

theorem noConsec_cons_sep {x : Char} {J : Str} (hJ : noConsec x J = true)
    (hJh : noLeadSep x J = true) : noConsec x (x :: J) = true := by
  cases J with
  | nil => rfl
  | cons c2 rest =>
    simp only [noLeadSep, Bool.not_eq_true', decide_eq_false_iff_not] at hJh
    simp only [noConsec, Bool.and_eq_true] at hJ ⊢
    refine ⟨?_, hJ⟩
    simp [hJh]

theorem noConsec_append_sep {x : Char} {J : Str} (hJ : noConsec x J = true)
    (hJh : noLeadSep x J = true) :
    ∀ {w : Str}, w ≠ [] → (∀ c ∈ w, ¬ c = x) → noConsec x (w ++ x :: J) = true := by
  intro w
  induction w with
  | nil => intro h _; exact absurd rfl h
  | cons a w2 ih =>
    intro _ hall
    have ha : ¬ a = x := hall a (List.mem_cons_self _ _)
    cases w2 with
    | nil =>
      simp only [List.nil_append, List.cons_append]
      have h2 : noConsec x (x :: J) = true := noConsec_cons_sep hJ hJh
      simp only [noConsec, Bool.and_eq_true] at h2 ⊢
      cases J with
      | nil => simp [noConsec, ha]
      | cons c2 rest =>
        simp only [noConsec, Bool.and_eq_true] at h2 ⊢
        exact ⟨by simp [ha], h2⟩
    | cons b w3 =>
      have ihr := ih (by simp) (fun c hc => hall c (List.mem_cons_of_mem _ hc))
      simp only [List.cons_append] at ihr ⊢
      simp only [noConsec, Bool.and_eq_true] at ihr ⊢
      exact ⟨by simp [ha], ihr⟩

theorem joinWith_wf {x : Char} :
    ∀ {ws : List Str}, ws ≠ [] → (∀ w ∈ ws, w ≠ [] ∧ ∀ c ∈ w, ¬ c = x) →
    noLeadSep x (joinWith x ws) = true ∧ noTrailSep x (joinWith x ws) = true ∧
      noConsec x (joinWith x ws) = true := by
  intro ws
  induction ws with
  | nil => intro h _; exact absurd rfl h
  | cons w ws2 ih =>
    intro _ hall
    obtain ⟨hwne, hwfree⟩ := hall w (List.mem_cons_self _ _)
    cases ws2 with
    | nil =>
      refine ⟨noLeadSep_of_all_ne hwfree, ?_, noConsec_of_all_ne hwfree⟩
      exact noLeadSep_of_all_ne (fun c hc => hwfree c (List.mem_reverse.mp hc))
    | cons w2 ws3 =>
      obtain ⟨ihh, iht, ihc⟩ := ih (by simp) (fun v hv => hall v (List.mem_cons_of_mem _ hv))
      have hJne : joinWith x (w2 :: ws3) ≠ [] :=
        joinWith_ne_nil (hall w2 (List.mem_cons_of_mem _ (List.mem_cons_self _ _))).1 ws3
      rw [joinWith_cons_cons]
      refine ⟨?_, ?_, ?_⟩
      · rw [noLeadSep_append hwne]
        exact noLeadSep_of_all_ne hwfree
      · unfold noTrailSep
        rw [List.reverse_append, List.reverse_cons]
        rw [List.append_assoc]
        rw [noLeadSep_append (by simpa using hJne)]
        exact iht
      · exact noConsec_append_sep ihc ihh hwne hwfree

/-! ## Boundary-insertion lemmas -/

theorem mem_camelBoundaryLU {c : Char} : ∀ {s : Str}, c ∈ camelBoundaryLU s → c = ' ' ∨ c ∈ s := by
  intro s
  induction s with
  | nil => intro h; simp [camelBoundaryLU] at h
  | cons c1 rest ih =>
    cases rest with
    | nil => intro h; simp only [camelBoundaryLU] at h; right; exact h
    | cons c2 rest2 =>
      intro h
      simp only [camelBoundaryLU] at h
      split at h
      · rcases List.mem_cons.mp h with h1 | h2
        · right; exact h1 ▸ List.mem_cons_self _ _
        · rcases List.mem_cons.mp h2 with h3 | h4
          · left; exact h3
          · rcases ih h4 with h5 | h6
            · left; exact h5
            · right; exact List.mem_cons_of_mem _ h6
      · rcases List.mem_cons.mp h with h1 | h2
        · right; exact h1 ▸ List.mem_cons_self _ _
        · rcases ih h2 with h3 | h4
          · left; exact h3
          · right; exact List.mem_cons_of_mem _ h4

theorem mem_camelBoundaryLDU {c : Char} :
    ∀ {s : Str}, c ∈ camelBoundaryLDU s → c = ' ' ∨ c ∈ s := by
  intro s
  induction s with
  | nil => intro h; simp [camelBoundaryLDU] at h
  | cons c1 rest ih =>
    cases rest with
    | nil => intro h; simp only [camelBoundaryLDU] at h; right; exact h
    | cons c2 rest2 =>
      intro h
      simp only [camelBoundaryLDU] at h
      split at h
      · rcases List.mem_cons.mp h with h1 | h2
        · right; exact h1 ▸ List.mem_cons_self _ _
        · rcases List.mem_cons.mp h2 with h3 | h4
          · left; exact h3
          · rcases ih h4 with h5 | h6
            · left; exact h5
            · right; exact List.mem_cons_of_mem _ h6
      · rcases List.mem_cons.mp h with h1 | h2
        · right; exact h1 ▸ List.mem_cons_self _ _
        · rcases ih h2 with h3 | h4
          · left; exact h3
          · right; exact List.mem_cons_of_mem _ h4

theorem mem_acronymBoundary {c : Char} :
    ∀ {s : Str}, c ∈ acronymBoundary s → c = ' ' ∨ c ∈ s := by
  intro s
  induction s with
  | nil => intro h; simp [acronymBoundary] at h
  | cons c1 rest ih =>
    cases rest with
    | nil => intro h; simp only [acronymBoundary] at h; right; exact h
    | cons c2 rest2 =>
      cases rest2 with
      | nil => intro h; simp only [acronymBoundary] at h; right; exact h
      | cons c3 rest3 =>
        intro h
        simp only [acronymBoundary] at h
        split at h
        · rcases List.mem_cons.mp h with h1 | h2
          · right; exact h1 ▸ List.mem_cons_self _ _
          · rcases List.mem_cons.mp h2 with h3 | h4
            · left; exact h3
            · rcases ih h4 with h5 | h6
              · left; exact h5
              · right; exact List.mem_cons_of_mem _ h6
        · rcases List.mem_cons.mp h with h1 | h2
          · right; exact h1 ▸ List.mem_cons_self _ _
          · rcases ih h2 with h3 | h4
            · left; exact h3
            · right; exact List.mem_cons_of_mem _ h4

theorem camelBoundaryLU_eq_self :
    ∀ {s : Str}, (∀ c ∈ s, isAsciiUpper c = false) → camelBoundaryLU s = s := by
  intro s
  induction s with
  | nil => intro _; rfl
  | cons c1 rest ih =>
    cases rest with
    | nil => intro _; rfl
    | cons c2 rest2 =>
      intro h
      have h2 : isAsciiUpper c2 = false := h c2 (List.mem_cons_of_mem _ (List.mem_cons_self _ _))
      simp only [camelBoundaryLU]
      rw [if_neg (by simp [h2])]
      rw [ih (fun c hc => h c (List.mem_cons_of_mem _ hc))]

theorem camelBoundaryLDU_eq_self :
    ∀ {s : Str}, (∀ c ∈ s, isAsciiUpper c = false) → camelBoundaryLDU s = s := by
  intro s
  induction s with
  | nil => intro _; rfl
  | cons c1 rest ih =>
    cases rest with
    | nil => intro _; rfl
    | cons c2 rest2 =>
      intro h
      have h2 : isAsciiUpper c2 = false := h c2 (List.mem_cons_of_mem _ (List.mem_cons_self _ _))
      simp only [camelBoundaryLDU]
      rw [if_neg (by simp [h2])]
      rw [ih (fun c hc => h c (List.mem_cons_of_mem _ hc))]

theorem acronymBoundary_eq_self :
    ∀ {s : Str}, (∀ c ∈ s, isAsciiUpper c = false) → acronymBoundary s = s := by
  intro s
  induction s with
  | nil => intro _; rfl
  | cons c1 rest ih =>
    cases rest with
    | nil => intro _; rfl
    | cons c2 rest2 =>
      cases rest2 with
      | nil => intro _; rfl
      | cons c3 rest3 =>
        intro h
        have h1 : isAsciiUpper c1 = false := h c1 (List.mem_cons_self _ _)
        simp only [acronymBoundary]
        rw [if_neg (by simp [h1])]
        rw [ih (fun c hc => h c (List.mem_cons_of_mem _ hc))]

/-! ## Trim, map and collapse lemmas -/

theorem mem_trim {c : Char} {s : Str} (h : c ∈ trim s) : c ∈ s := by
  unfold trim at h
  rw [List.mem_reverse] at h
  have h2 := List.Sublist.mem h (List.dropWhile_sublist _)
  rw [List.mem_reverse] at h2
  exact List.Sublist.mem h2 (List.dropWhile_sublist _)

theorem dropWhile_eq_self_of_all {p : Char → Bool} {s : Str}
    (h : ∀ c ∈ s, p c = false) : s.dropWhile p = s := by
  cases s with
  | nil => rfl
  | cons c rest =>
    rw [List.dropWhile_cons, if_neg (by simp [h c (List.mem_cons_self c rest)])]

theorem trim_eq_self {s : Str} (h : ∀ c ∈ s, isJsSpace c = false) : trim s = s := by
  unfold trim
  rw [dropWhile_eq_self_of_all h]
  rw [dropWhile_eq_self_of_all (fun c hc => h c (List.mem_reverse.mp hc))]
  exact List.reverse_reverse s

theorem map_eq_self_of {f : Char → Char} {s : Str} (h : ∀ c ∈ s, f c = c) : s.map f = s := by
  calc s.map f = s.map id := List.map_congr_left h
  _ = s := List.map_id s

theorem mem_collapseSeps {c : Char} {p : Char → Bool} {s : Str}
    (h : c ∈ collapseSeps p s) : c = ' ' ∨ (c ∈ s ∧ p c = false) := by
  unfold collapseSeps at h
  have h2 := mem_squeezeSpaces h
  rw [List.mem_map] at h2
  obtain ⟨d, hd, hde⟩ := h2
  by_cases hp : p d = true
  · left; rw [← hde, if_pos hp]
  · right
    have hdc : d = c := by rw [← hde, if_neg hp]
    rw [← hdc]
    exact ⟨hd, by simpa using hp⟩

theorem squeezeSpaces_all_space :
    ∀ {s : Str}, s ≠ [] → (∀ c ∈ s, c = ' ') → squeezeSpaces s = [' '] := by
  intro s
  induction s with
  | nil => intro h _; exact absurd rfl h
  | cons c1 rest ih =>
    intro _ hall
    have h1 : c1 = ' ' := hall c1 (List.mem_cons_self _ _)
    cases rest with
    | nil => simp [squeezeSpaces, h1]
    | cons c2 rest2 =>
      have h2 : c2 = ' ' := hall c2 (List.mem_cons_of_mem _ (List.mem_cons_self _ _))
      simp only [squeezeSpaces]
      rw [if_pos (by simp [h1, h2])]
      exact ih (by simp) (fun c hc => hall c (List.mem_cons_of_mem _ hc))

theorem collapseSeps_of_all_sep {p : Char → Bool} {s : Str} (hne : s ≠ [])
    (h : ∀ c ∈ s, p c = true) : collapseSeps p s = [' '] := by
  unfold collapseSeps
  apply squeezeSpaces_all_space
  · simpa using hne
  · intro c hc
    rw [List.mem_map] at hc
    obtain ⟨d, hd, hde⟩ := hc
    rw [← hde, if_pos (h d hd)]

theorem collapseSeps_joinWith {p : Char → Bool} {sep : Char} (hsep : p sep = true)
    (hspace : p ' ' = true) :
    ∀ {ws : List Str}, ws ≠ [] → (∀ w ∈ ws, w ≠ [] ∧ ∀ c ∈ w, p c = false) →
    collapseSeps p (joinWith sep ws) = joinWith ' ' ws := by
  intro ws hne hall
  have hfree : ∀ w ∈ ws, w ≠ [] ∧ ∀ c ∈ w, ¬ c = ' ' := by
    intro w hw
    refine ⟨(hall w hw).1, fun c hc hsp => ?_⟩
    have := (hall w hw).2 c hc
    rw [hsp, hspace] at this
    exact absurd this (by simp)
  unfold collapseSeps
  have hmap : (joinWith sep ws).map (fun c => if p c then ' ' else c) = joinWith ' ' ws := by
    rw [joinWith_map]
    rw [if_pos hsep]
    congr 1
    calc ws.map (List.map fun c => if p c then ' ' else c) = ws.map id := by
          apply List.map_congr_left
          intro w hw
          exact map_eq_self_of (fun c hc => if_neg (by simp [(hall w hw).2 c hc]))
    _ = ws := List.map_id ws
  rw [hmap]
  apply squeezeSpaces_eq_self
  exact (joinWith_wf hne hfree).2.2

/-! ## Shape of the kebab output -/

theorem kebabWordChar_facts {c : Char} (h : isKebabWordChar c = true) :
    isJsSpace c = false ∧ isAsciiUpper c = false ∧ isSep c = false ∧
      isAsciiAlnum c = true ∧ ¬ c = ' ' ∧ kebabKeep c = true := by
  have hsp : (' ' : Char).toNat = 32 := by decide
  simp only [isKebabWordChar, isAsciiLower, isAsciiDigit, Bool.or_eq_true,
    decide_eq_true_eq] at h
  refine ⟨?_, ?_, ?_, ?_, ?_, ?_⟩
  · simp only [isJsSpace, decide_eq_false_iff_not]; omega
  · simp only [isAsciiUpper, decide_eq_false_iff_not]; omega
  · simp only [isSep, isJsSpace, Bool.or_eq_false_iff, decide_eq_false_iff_not]
    refine ⟨⟨?_, ?_⟩, ?_⟩ <;> omega
  · simp only [isAsciiAlnum, isAsciiUpper, isAsciiLower, isAsciiDigit, Bool.or_eq_true,
      decide_eq_true_eq]
    omega
  · intro hc
    rw [char_eq_iff_toNat, hsp] at hc
    omega
  · simp only [kebabKeep, isAsciiAlnum, isAsciiUpper, isAsciiLower, isAsciiDigit,
      Bool.or_eq_true, decide_eq_true_eq]
    omega

theorem kebabWords_spec {input : Str} {w : Str} (hw : w ∈ kebabWords input) :
    w ≠ [] ∧ ∀ c ∈ w, isAsciiAlnum c = true := by
  unfold kebabWords at hw
  rw [List.mem_filter] at hw
  obtain ⟨hsplit, hne⟩ := hw
  refine ⟨by simpa using hne, ?_⟩
  intro c hc
  obtain ⟨hmem, hnsp⟩ := mem_of_mem_jsSplitChar hsplit hc
  rcases mem_collapseSeps hmem with h1 | ⟨h2, h3⟩
  · exact absurd h1 hnsp
  · rw [List.mem_filter] at h2
    have hkeep := h2.2
    simp only [kebabKeep, Bool.or_eq_true] at hkeep
    rcases hkeep with (ha | hs) | hd
    · exact ha
    · exfalso
      simp only [isSep, hs, Bool.true_or, Bool.or_eq_true] at h3
      simp at h3
    · exfalso
      simp only [isSep, Bool.or_eq_false_iff] at h3
      rw [decide_eq_true_eq] at hd
      have := h3.2
      simp [hd] at this

theorem kebabOfString_shape (input : Str) :
    kebabOfString input = [] ∨
    ∃ ws, ws ≠ [] ∧ (∀ w ∈ ws, w ≠ [] ∧ ∀ c ∈ w, isKebabWordChar c = true) ∧
      kebabOfString input = joinWith '-' ws := by
  unfold kebabOfString
  by_cases h1 : (trim input).isEmpty
  · left; rw [if_pos h1]
  · rw [if_neg h1]
    by_cases h2 : (kebabWords input).isEmpty
    · left; simp [h2]
    · right
      refine ⟨(kebabWords input).map (List.map jsToLowerChar), ?_, ?_, ?_⟩
      · intro hcon
        rw [List.map_eq_nil_iff] at hcon
        rw [hcon] at h2
        exact h2 rfl
      · intro w hw
        rw [List.mem_map] at hw
        obtain ⟨w0, hw0, hw0e⟩ := hw
        obtain ⟨hne, halnum⟩ := kebabWords_spec hw0
        constructor
        · rw [← hw0e]
          simpa [List.map_eq_nil_iff] using hne
        · intro c hc
          rw [← hw0e, List.mem_map] at hc
          obtain ⟨d, hd, hde⟩ := hc
          rw [← hde]
          exact lower_alnum d (halnum d hd)
      · rw [if_neg h2]
        rw [joinWith_map]
        have : jsToLowerChar '-' = '-' := by decide
        rw [this]

/-- A kebab-shaped string is a fixed point of `kebabOfString`. -/
theorem kebabOfString_fixed {ws : List Str} (hne : ws ≠ [])
    (hall : ∀ w ∈ ws, w ≠ [] ∧ ∀ c ∈ w, isKebabWordChar c = true) :
    kebabOfString (joinWith '-' ws) = joinWith '-' ws := by
  obtain ⟨w1, ws1, rfl⟩ := List.exists_cons_of_ne_nil hne
  set t := joinWith '-' (w1 :: ws1) with ht
  have hchar : ∀ c ∈ t, isKebabWordChar c = true ∨ c = '-' := by
    intro c hc
    rcases mem_joinWith hc with h1 | ⟨w, hw, hcw⟩
    · right; exact h1
    · left; exact (hall w hw).2 c hcw
  have hnospace : ∀ c ∈ t, isJsSpace c = false := by
    intro c hc
    rcases hchar c hc with h1 | h2
    · exact (kebabWordChar_facts h1).1
    · rw [h2]; decide
  have hnoupper : ∀ c ∈ t, isAsciiUpper c = false := by
    intro c hc
    rcases hchar c hc with h1 | h2
    · exact (kebabWordChar_facts h1).2.1
    · rw [h2]; decide
  have htrim : trim t = t := trim_eq_self hnospace
  have htne : t ≠ [] := joinWith_ne_nil (hall w1 (List.mem_cons_self _ _)).1 ws1
  have hstep1 : camelBoundaryLDU t = t := camelBoundaryLDU_eq_self hnoupper
  have hstep2 : t.map (fun c => if c = '_' then ' ' else c) = t := by
    apply map_eq_self_of
    intro c hc
    apply if_neg
    rcases hchar c hc with hk | hd
    · intro hcu
      have halnum := (kebabWordChar_facts hk).2.2.2.1
      simp only [isAsciiAlnum, isAsciiUpper, isAsciiLower, isAsciiDigit, Bool.or_eq_true,
        decide_eq_true_eq] at halnum
      rw [char_eq_iff_toNat] at hcu
      have h95 : ('_' : Char).toNat = 95 := by decide
      rw [h95] at hcu
      omega
    · rw [hd]; decide
  have hstep3 : List.filter kebabKeep t = t := by
    apply List.filter_eq_self.2
    intro c hc
    rcases hchar c hc with hk | hd
    · exact (kebabWordChar_facts hk).2.2.2.2.2
    · rw [hd]; decide
  have hstep4 : collapseSeps isSep t = joinWith ' ' (w1 :: ws1) := by
    rw [ht]
    exact collapseSeps_joinWith (by decide) (by decide) (by simp)
      (fun w hw => ⟨(hall w hw).1, fun c hc => (kebabWordChar_facts ((hall w hw).2 c hc)).2.2.1⟩)
  have hstep5 : jsSplitChar ' ' (joinWith ' ' (w1 :: ws1)) = w1 :: ws1 :=
    jsSplitChar_joinWith (by simp)
      (fun w hw c hc => (kebabWordChar_facts ((hall w hw).2 c hc)).2.2.2.2.1)
  have hstep6 : List.filter (fun w => !w.isEmpty) (w1 :: ws1) = w1 :: ws1 :=
    List.filter_eq_self.2 (fun w hw => by
      simpa [List.isEmpty_iff] using (hall w hw).1)
  have hwords : kebabWords t = w1 :: ws1 := by
    unfold kebabWords
    rw [htrim, hstep1, hstep2, hstep3, hstep4, hstep5, hstep6]
  unfold kebabOfString
  rw [htrim, if_neg (by simpa [List.isEmpty_iff] using htne)]
  simp only [hwords]
  rw [if_neg (by simp)]
  rw [← ht]
  rw [joinWith_map]
  have hdash : jsToLowerChar '-' = '-' := by decide
  rw [hdash]
  rw [ht]
  congr 1
  calc (w1 :: ws1).map (List.map jsToLowerChar) = (w1 :: ws1).map id := by
        apply List.map_congr_left
        intro w hw
        exact map_eq_self_of (fun c hc =>
          jsToLowerChar_eq_self c (kebabWordChar_facts ((hall w hw).2 c hc)).2.1)
  _ = w1 :: ws1 := List.map_id _

/-- `toKebabCase` is idempotent. -/
theorem kebabOfString_idem (input : Str) :
    kebabOfString (kebabOfString input) = kebabOfString input := by
  rcases kebabOfString_shape input with h | ⟨ws, hne, hall, heq⟩
  · rw [h]; rfl
  · rw [heq]
    exact kebabOfString_fixed hne hall

/-! ## Shape of the dot output -/

theorem dotWordChar_facts {c : Char} (h : isDotWordChar c = true) :
    isSepDot c = false ∧ isAsciiUpper c = false ∧ isJsSpace c = false ∧
      ¬ c = ' ' ∧ ¬ c = '.' := by
  simp only [isDotWordChar, Bool.and_eq_true, Bool.not_eq_true'] at h
  obtain ⟨hsep, hup⟩ := h
  have hspace : isJsSpace c = false := by
    simp only [isSepDot, isSep, Bool.or_eq_false_iff] at hsep
    exact hsep.1.1.1
  refine ⟨hsep, hup, hspace, ?_, ?_⟩
  · intro hc
    rw [hc] at hsep
    exact absurd hsep (by decide)
  · intro hc
    rw [hc] at hsep
    exact absurd hsep (by decide)

theorem dotWordsOfTrimmed_spec {str : Str} {w : Str} (hw : w ∈ dotWordsOfTrimmed str) :
    w ≠ [] ∧ ∀ c ∈ w, isSepDot c = false := by
  unfold dotWordsOfTrimmed at hw
  rw [List.mem_filter] at hw
  obtain ⟨hsplit, hne⟩ := hw
  refine ⟨by simpa using hne, ?_⟩
  intro c hc
  obtain ⟨hmem, hnsp⟩ := mem_of_mem_jsSplitChar hsplit hc
  rcases mem_collapseSeps hmem with h1 | ⟨_, h3⟩
  · exact absurd h1 hnsp
  · exact h3

theorem dotOfString_shape (input : Str) :
    dotOfString input = [] ∨
    ∃ ws, ws ≠ [] ∧ (∀ w ∈ ws, w ≠ [] ∧ ∀ c ∈ w, isDotWordChar c = true) ∧
      dotOfString input = joinWith '.' ws := by
  unfold dotOfString
  by_cases h1 : ((trim input).isEmpty || (trim input).all isSepDot) = true
  · left
    rw [if_pos h1]
  · rw [if_neg h1]
    by_cases h2 : dotWordsOfTrimmed (trim input) = []
    · left; rw [h2]; rfl
    · right
      refine ⟨(dotWordsOfTrimmed (trim input)).map (List.map jsToLowerChar), ?_, ?_, rfl⟩
      · simpa [List.map_eq_nil_iff] using h2
      · intro w hw
        rw [List.mem_map] at hw
        obtain ⟨w0, hw0, hw0e⟩ := hw
        obtain ⟨hne, hfree⟩ := dotWordsOfTrimmed_spec hw0
        constructor
        · rw [← hw0e]
          simpa [List.map_eq_nil_iff] using hne
        · intro c hc
          rw [← hw0e, List.mem_map] at hc
          obtain ⟨d, hd, hde⟩ := hc
          rw [← hde]
          simp only [isDotWordChar, Bool.and_eq_true, Bool.not_eq_true']
          exact ⟨by rw [isSepDot_lower]; exact hfree d hd, lower_not_upper d⟩

/-- A dot-shaped string is a fixed point of `dotOfString`. -/
theorem dotOfString_fixed {ws : List Str} (hne : ws ≠ [])
    (hall : ∀ w ∈ ws, w ≠ [] ∧ ∀ c ∈ w, isDotWordChar c = true) :
    dotOfString (joinWith '.' ws) = joinWith '.' ws := by
  obtain ⟨w1, ws1, rfl⟩ := List.exists_cons_of_ne_nil hne
  set t := joinWith '.' (w1 :: ws1) with ht
  have hchar : ∀ c ∈ t, isDotWordChar c = true ∨ c = '.' := by
    intro c hc
    rcases mem_joinWith hc with h1 | ⟨w, hw, hcw⟩
    · right; exact h1
    · left; exact (hall w hw).2 c hcw
  have hnospace : ∀ c ∈ t, isJsSpace c = false := by
    intro c hc
    rcases hchar c hc with hk | hd
    · exact (dotWordChar_facts hk).2.2.1
    · rw [hd]; decide
  have hnoupper : ∀ c ∈ t, isAsciiUpper c = false := by
    intro c hc
    rcases hchar c hc with hk | hd
    · exact (dotWordChar_facts hk).2.1
    · rw [hd]; decide
  have htrim : trim t = t := trim_eq_self hnospace
  have htne : t ≠ [] := joinWith_ne_nil (hall w1 (List.mem_cons_self _ _)).1 ws1
  have hnotall : t.all isSepDot = false := by
    obtain ⟨c1, w2, hw1⟩ := List.exists_cons_of_ne_nil (hall w1 (List.mem_cons_self _ _)).1
    have hc1w : c1 ∈ w1 := hw1 ▸ List.mem_cons_self _ _
    have hc1 : c1 ∈ t := by
      rw [ht]
      cases ws1 with
      | nil => exact hc1w
      | cons w2' ws2 =>
        rw [joinWith_cons_cons]
        exact List.mem_append_left _ hc1w
    have hfree := (dotWordChar_facts ((hall w1 (List.mem_cons_self _ _)).2 c1 hc1w)).1
    rcases hcond : t.all isSepDot with hfalse | htrue
    · rfl
    · exfalso
      have := List.all_eq_true.mp hcond c1 hc1
      rw [hfree] at this
      exact absurd this (by simp)
  have hstep1 : camelBoundaryLU t = t := camelBoundaryLU_eq_self hnoupper
  have hstep2 : acronymBoundary t = t := acronymBoundary_eq_self hnoupper
  have hstep3 : collapseSeps isSepDot t = joinWith ' ' (w1 :: ws1) := by
    rw [ht]
    exact collapseSeps_joinWith (by decide) (by decide) (by simp)
      (fun w hw => ⟨(hall w hw).1, fun c hc => (dotWordChar_facts ((hall w hw).2 c hc)).1⟩)
  have hstep4 : jsSplitChar ' ' (joinWith ' ' (w1 :: ws1)) = w1 :: ws1 :=
    jsSplitChar_joinWith (by simp)
      (fun w hw c hc => (dotWordChar_facts ((hall w hw).2 c hc)).2.2.2.1)
  have hstep5 : List.filter (fun w => !w.isEmpty) (w1 :: ws1) = w1 :: ws1 :=
    List.filter_eq_self.2 (fun w hw => by
      simpa [List.isEmpty_iff] using (hall w hw).1)
  have hwords : dotWordsOfTrimmed t = w1 :: ws1 := by
    unfold dotWordsOfTrimmed
    rw [hstep1, hstep2, hstep3, hstep4, hstep5]
  unfold dotOfString
  rw [htrim]
  rw [if_neg (by simp [hnotall, List.isEmpty_iff, htne])]
  rw [hwords]
  have hmaps : (w1 :: ws1).map (List.map jsToLowerChar) = w1 :: ws1 := by
    calc (w1 :: ws1).map (List.map jsToLowerChar) = (w1 :: ws1).map id := by
          apply List.map_congr_left
          intro w hw
          exact map_eq_self_of (fun c hc =>
            jsToLowerChar_eq_self c (dotWordChar_facts ((hall w hw).2 c hc)).2.1)
    _ = w1 :: ws1 := List.map_id _
  rw [hmaps]

/-- `toDotCase` is idempotent. -/
theorem dotOfString_idem (input : Str) :
    dotOfString (dotOfString input) = dotOfString input := by
  rcases dotOfString_shape input with h | ⟨ws, hne, hall, heq⟩
  · rw [h]; rfl
  · rw [heq]
    exact dotOfString_fixed hne hall

/-! ## Character sets of the camel outputs -/

theorem mem_mapIdx {α β : Type} :
    ∀ (l : List α) (f : Nat → α → β) (b : β), b ∈ l.mapIdx f → ∃ i a, a ∈ l ∧ b = f i a := by
  intro l
  induction l with
  | nil => intro f b h; simp [List.mapIdx_nil] at h
  | cons a l2 ih =>
    intro f b h
    rw [List.mapIdx_cons] at h
    rcases List.mem_cons.mp h with h1 | h2
    · exact ⟨0, a, List.mem_cons_self _ _, h1⟩
    · obtain ⟨i, a2, ha2, hb⟩ := ih _ _ h2
      exact ⟨i + 1, a2, List.mem_cons_of_mem _ ha2, hb⟩

theorem camelWordsOfTrimmed_spec {str : Str} {w : Str} (hw : w ∈ camelWordsOfTrimmed str) :
    w ≠ [] ∧ ∀ c ∈ w, isSep c = false := by
  unfold camelWordsOfTrimmed at hw
  rw [List.mem_flatMap] at hw
  obtain ⟨w0, hw0, hw⟩ := hw
  rw [List.mem_filter] at hw hw0
  obtain ⟨hw0s, _⟩ := hw0
  obtain ⟨hws, hwne⟩ := hw
  refine ⟨by simpa using hwne, ?_⟩
  intro c hc
  unfold splitCamel at hws
  obtain ⟨hmem, hnsp⟩ := mem_of_mem_jsSplitChar hws hc
  rcases mem_camelBoundaryLDU hmem with h1 | h2
  · exact absurd h1 hnsp
  rcases mem_acronymBoundary h2 with h3 | h4
  · exact absurd h3 hnsp
  unfold jsSplitRuns at hw0s
  obtain ⟨hm2, hn2⟩ := mem_of_mem_jsSplitChar hw0s h4
  rcases mem_collapseSeps hm2 with h5 | ⟨_, h6⟩
  · exact absurd h5 hn2
  · exact h6

theorem camelMapWord_notSep {w : Str} (hw : ∀ c ∈ w, isSep c = false)
    (pres : Bool) (i : Nat) : ∀ c ∈ camelMapWord pres i w, isSep c = false := by
  intro c hc
  unfold camelMapWord at hc
  have hmap : ∀ d ∈ w.map jsToLowerChar, isSep d = false := by
    intro d hd
    rw [List.mem_map] at hd
    obtain ⟨e, he, hee⟩ := hd
    rw [← hee, isSep_lower]
    exact hw e he
  split at hc
  · split at hc
    · exact hmap c hc
    · exact hw c hc
  · cases w with
    | nil => simp at hc
    | cons d w2 =>
      simp only [List.map_cons] at hc
      split at hc
      · exact hmap c (by simpa using hc)
      · rcases List.mem_cons.mp hc with h1 | h2
        · rw [h1, isSep_upper, isSep_lower]
          exact hw d (List.mem_cons_self _ _)
        · have : c ∈ (d :: w2).map jsToLowerChar := by
            simp only [List.map_cons]
            exact List.mem_cons_of_mem _ h2
          exact hmap c this

theorem camelCaseOfString_notSep (s : Str) (opts : Options) :
    ∀ c ∈ camelCaseOfString s opts, isSep c = false := by
  intro c hc
  simp only [camelCaseOfString] at hc
  split at hc
  · exact absurd hc (List.not_mem_nil c)
  · split at hc
    · exact absurd hc (List.not_mem_nil c)
    · rw [List.mem_flatten] at hc
      obtain ⟨w1, hw1, hcw⟩ := hc
      obtain ⟨i, w, hwmem, hwe⟩ := mem_mapIdx _ _ _ hw1
      rw [hwe] at hcw
      exact camelMapWord_notSep (camelWordsOfTrimmed_spec hwmem).2 _ _ c hcw

theorem lenientWords_spec {input : Str} {w : Str} (hw : w ∈ lenientWords input) :
    ∀ c ∈ w, isSep c = false := by
  unfold lenientWords at hw
  intro c hc
  obtain ⟨hmem, hnsp⟩ := mem_of_mem_jsSplitChar hw hc
  rcases mem_collapseSeps hmem with h1 | ⟨_, h3⟩
  · exact absurd h1 hnsp
  · exact h3

theorem lenientOfString_notSep (s : Str) : ∀ c ∈ lenientOfString s, isSep c = false := by
  intro c hc
  unfold lenientOfString at hc
  rw [List.mem_flatten] at hc
  obtain ⟨w1, hw1, hcw⟩ := hc
  obtain ⟨i, w, hwmem, hwe⟩ := mem_mapIdx _ _ _ hw1
  rw [hwe] at hcw
  split at hcw
  · exact lenientWords_spec hwmem c hcw
  · cases w with
    | nil => simp at hcw
    | cons d w2 =>
      rcases List.mem_cons.mp hcw with h1 | h2
      · rw [h1, isSep_upper]
        exact lenientWords_spec hwmem d (List.mem_cons_self _ _)
      · exact lenientWords_spec hwmem c (List.mem_cons_of_mem _ h2)

/-! ## Separator-only and punctuation-only inputs -/

theorem sep_not_upper {c : Char} (h : isSep c = true) : isAsciiUpper c = false := by
  simp only [isSep, isJsSpace, Bool.or_eq_true, decide_eq_true_eq] at h
  simp only [isAsciiUpper, decide_eq_false_iff_not]
  omega

theorem sep_not_alnum {c : Char} (h : isSep c = true) : isAsciiAlnum c = false := by
  simp only [isSep, isJsSpace, Bool.or_eq_true, decide_eq_true_eq] at h
  simp only [isAsciiAlnum, isAsciiUpper, isAsciiLower, isAsciiDigit, Bool.or_eq_false_iff,
    decide_eq_false_iff_not]
  refine ⟨⟨?_, ?_⟩, ?_⟩ <;> omega

theorem notSep_facts {c : Char} (h : isSep c = false) :
    isJsSpace c = false ∧ ¬ c = '_' ∧ ¬ c = '-' ∧ ¬ c = ' ' := by
  simp only [isSep, Bool.or_eq_false_iff] at h
  obtain ⟨⟨hsp, h95⟩, h45⟩ := h
  refine ⟨hsp, ?_, ?_, ?_⟩
  · intro hc; rw [hc] at h95; exact absurd h95 (by decide)
  · intro hc; rw [hc] at h45; exact absurd h45 (by decide)
  · intro hc; rw [hc] at hsp; exact absurd hsp (by decide)

theorem all_trim {p : Char → Bool} {s : Str} (h : ∀ c ∈ s, p c = true) :
    ∀ c ∈ trim s, p c = true := fun c hc => h c (mem_trim hc)

/-- Splitting a separator-only string on separator runs and dropping the
empty components leaves nothing. -/
theorem splitRuns_all_sep {p : Char → Bool} {l : Str} (h : ∀ c ∈ l, p c = true) :
    (jsSplitChar ' ' (collapseSeps p l)).filter (fun w => !w.isEmpty) = [] := by
  cases l with
  | nil =>
    rw [show collapseSeps p [] = [] from rfl]
    rfl
  | cons c rest =>
    rw [collapseSeps_of_all_sep (by simp) h]
    rfl

/-- `toKebabCase` of a string with no alphanumeric character is empty. -/
theorem kebabOfString_no_alnum {s : Str} (h : ∀ c ∈ s, isAsciiAlnum c = false) :
    kebabOfString s = [] := by
  unfold kebabOfString
  by_cases h1 : (trim s).isEmpty
  · rw [if_pos h1]
  · rw [if_neg h1]
    have hfil : ∀ c ∈ List.filter kebabKeep
        ((camelBoundaryLDU (trim s)).map fun c => if c = '_' then ' ' else c),
        isSep c = true := by
      intro c hc
      rw [List.mem_filter] at hc
      obtain ⟨hmem, hkeep⟩ := hc
      have hnal : isAsciiAlnum c = false := by
        rw [List.mem_map] at hmem
        obtain ⟨d, hd, hde⟩ := hmem
        by_cases hdu : d = '_'
        · rw [← hde, if_pos hdu]; decide
        · rw [← hde, if_neg hdu]
          rcases mem_camelBoundaryLDU hd with h2 | h3
          · rw [h2]; decide
          · exact h d (mem_trim h3)
      simp only [kebabKeep, hnal, Bool.false_or, Bool.or_eq_true] at hkeep
      simp only [isSep, Bool.or_eq_true]
      rcases hkeep with h2 | h3
      · left; left; exact h2
      · right; exact h3
    have hw : kebabWords s = [] := by
      unfold kebabWords
      exact splitRuns_all_sep hfil
    simp [hw]

/-- The strict `toCamelCase` of a separator-only string is empty. -/
theorem camelCaseOfString_all_sep {s : Str} (h : ∀ c ∈ s, isSep c = true)
    (opts : Options) : camelCaseOfString s opts = [] := by
  simp only [camelCaseOfString]
  have hall : (trim s).all isSep = true := List.all_eq_true.2 (all_trim h)
  rw [if_pos (by simp [hall])]

/-- `toDotCase` of a separator-only string is empty. -/
theorem dotOfString_all_sep {s : Str} (h : ∀ c ∈ s, isSep c = true) :
    dotOfString s = [] := by
  simp only [dotOfString]
  have hall : (trim s).all isSepDot = true := List.all_eq_true.2 (by
    intro c hc
    have := all_trim h c hc
    simp [isSepDot, this])
  rw [if_pos (by simp [hall])]

/-- The lenient `toCamelCase` of a separator-only string is empty. -/
theorem lenientOfString_all_sep {s : Str} (h : ∀ c ∈ s, isSep c = true) :
    lenientOfString s = [] := by
  unfold lenientOfString lenientWords
  have hmap : (trim s).map jsToLowerChar = trim s :=
    map_eq_self_of (fun c hc => jsToLowerChar_eq_self c (sep_not_upper (all_trim h c hc)))
  rw [hmap]
  cases htr : trim s with
  | nil =>
    rw [show collapseSeps isSep [] = [] from rfl]
    rfl
  | cons c rest =>
    have hall2 : ∀ d ∈ c :: rest, isSep d = true := by
      rw [← htr]; exact all_trim h
    rw [collapseSeps_of_all_sep (by simp) hall2]
    rfl

/-! ## Claims -/

/-- C1 (counterexample): the claim says punctuation-only input yields the
empty string for every variant, but `toDotCase "!"` is `"!"` (dot-case
never strips punctuation), and the strict and lenient `toCamelCase`
likewise return `"!!!"` on `"!!!"`. -/
theorem claim1_counterexample :
    toDotCase (JSValue.str (strL "!")) = .ok (strL "!") ∧
    Strict.toCamelCase (JSValue.str (strL "!!!")) {} = .ok (strL "!!!") ∧
    Lenient.toCamelCase (JSValue.str (strL "!!!")) = strL "!!!" ∧
    ¬ strL "!" = ([] : Str) :=
  ⟨rfl, rfl, rfl, by decide⟩

/-- C1 (amended): an input that is empty or consists only of separator
characters (whitespace, underscore, hyphen) yields the empty string for
every variant under both policies; a punctuation-only input yields the
empty string only for `toKebabCase` (the only variant that strips
non-alphanumeric characters). -/
theorem claim1_amended (s t : Str) (opts : Options)
    (hs : ∀ c ∈ s, isSep c = true) (ht : ∀ c ∈ t, isAsciiAlnum c = false) :
    toKebabCase (JSValue.str s) = [] ∧
    Strict.toCamelCase (JSValue.str s) opts = .ok [] ∧
    toDotCase (JSValue.str s) = .ok [] ∧
    Lenient.toCamelCase (JSValue.str s) = [] ∧
    toKebabCase (JSValue.str t) = [] := by
  refine ⟨?_, ?_, ?_, ?_, ?_⟩
  · show kebabOfString s = []
    exact kebabOfString_no_alnum (fun c hc => sep_not_alnum (hs c hc))
  · show Except.ok (camelCaseOfString s opts) = Except.ok []
    rw [camelCaseOfString_all_sep hs opts]
  · show Except.ok (dotOfString s) = Except.ok []
    rw [dotOfString_all_sep hs]
  · show lenientOfString s = []
    exact lenientOfString_all_sep hs
  · show kebabOfString t = []
    exact kebabOfString_no_alnum ht

/-- C1 (witness): the amended claim at the separator-only input `" _- "`
and the punctuation-only input `"!@#"`. -/
theorem claim1_witness :
    toKebabCase (JSValue.str (strL " _- ")) = [] ∧
    Strict.toCamelCase (JSValue.str (strL " _- ")) ⟨false⟩ = .ok [] ∧
    toDotCase (JSValue.str (strL " _- ")) = .ok [] ∧
    Lenient.toCamelCase (JSValue.str (strL " _- ")) = [] ∧
    toKebabCase (JSValue.str (strL "!@#")) = [] :=
  claim1_amended (strL " _- ") (strL "!@#") ⟨false⟩ (by decide) (by decide)

/-- C2: on any non-string input, the lenient functions (`toKebabCase`,
lenient `toCamelCase`) return the empty string, while the strict
functions (strict `toCamelCase`, `toDotCase`) signal a type error and
return no string. -/
theorem claim2 (v : JSValue) (opts : Options) (h : v.isString = false) :
    toKebabCase v = [] ∧ Lenient.toCamelCase v = [] ∧
    Strict.toCamelCase v opts = .error "Input must be a string." ∧
    toDotCase v = .error "Input must be a string." := by
  cases v with
  | str s => simp [JSValue.isString] at h
  | num n => exact ⟨rfl, rfl, rfl, rfl⟩
  | boolean b => exact ⟨rfl, rfl, rfl, rfl⟩
  | null => exact ⟨rfl, rfl, rfl, rfl⟩
  | undefined => exact ⟨rfl, rfl, rfl, rfl⟩

/-- C2 (witness): the non-string input `null`. -/
theorem claim2_witness :
    toKebabCase JSValue.null = [] ∧ Lenient.toCamelCase JSValue.null = [] ∧
    Strict.toCamelCase JSValue.null {} = .error "Input must be a string." ∧
    toDotCase JSValue.null = .error "Input must be a string." :=
  claim2 JSValue.null {} rfl

/-- C3: the claim (and the source's own doc comment) says
`toCamelCase("FOO_BAR", {preserveAcronyms: true})` is `"FOOBar"`, but
the code returns `"fooBAR"`: the first token `"FOO"` is lowercased
whole, and the preserved acronym `"BAR"` is kept verbatim. -/
theorem claim3_code_eval :
    Strict.toCamelCase (JSValue.str (strL "FOO_BAR")) ⟨true⟩ = .ok (strL "fooBAR") :=
  congrArg Except.ok (by decide)

/-- C4 (counterexample): the lenient `toCamelCase` is not idempotent:
`"first name"` maps to `"firstName"`, which maps to `"firstname"`
(the function lowercases everything and only splits on separators, so a
camelCased output collapses on the second application). -/
theorem claim4_counterexample :
    ¬ Lenient.toCamelCase (JSValue.str (Lenient.toCamelCase (JSValue.str (strL "first name")))) =
        Lenient.toCamelCase (JSValue.str (strL "first name")) := by decide

/-- C4 (amended): applying the same conversion twice yields the same
result as applying it once for `toKebabCase` and `toDotCase` (every
output is a fixed point); the lenient `toCamelCase` is not idempotent. -/
theorem claim4_amended (s : Str) :
    toKebabCase (JSValue.str (toKebabCase (JSValue.str s))) = toKebabCase (JSValue.str s) ∧
    toDotCase (JSValue.str (dotOfString s)) = .ok (dotOfString s) :=
  ⟨kebabOfString_idem s, congrArg Except.ok (dotOfString_idem s)⟩

/-- C5: for every string input, the output of every variant contains no
whitespace character and no underscore, and the outputs of `toKebabCase`
and `toDotCase` additionally contain no uppercase ASCII character. -/
theorem claim5 (s : Str) (opts : Options) :
    (∀ c ∈ kebabOfString s, isJsSpace c = false ∧ ¬ c = '_' ∧ isAsciiUpper c = false) ∧
    (∀ c ∈ dotOfString s, isJsSpace c = false ∧ ¬ c = '_' ∧ isAsciiUpper c = false) ∧
    (∀ c ∈ camelCaseOfString s opts, isJsSpace c = false ∧ ¬ c = '_') ∧
    (∀ c ∈ lenientOfString s, isJsSpace c = false ∧ ¬ c = '_') := by
  refine ⟨?_, ?_, ?_, ?_⟩
  · intro c hc
    rcases kebabOfString_shape s with h | ⟨ws, hne, hall, heq⟩
    · rw [h] at hc; exact absurd hc (List.not_mem_nil c)
    · rw [heq] at hc
      rcases mem_joinWith hc with hd | ⟨w, hw, hcw⟩
      · rw [hd]; refine ⟨by decide, by decide, by decide⟩
      · have hf := kebabWordChar_facts ((hall w hw).2 c hcw)
        exact ⟨hf.1, (notSep_facts hf.2.2.1).2.1, hf.2.1⟩
  · intro c hc
    rcases dotOfString_shape s with h | ⟨ws, hne, hall, heq⟩
    · rw [h] at hc; exact absurd hc (List.not_mem_nil c)
    · rw [heq] at hc
      rcases mem_joinWith hc with hd | ⟨w, hw, hcw⟩
      · rw [hd]; refine ⟨by decide, by decide, by decide⟩
      · have hf := dotWordChar_facts ((hall w hw).2 c hcw)
        have hnsep : isSep c = false := by
          have := hf.1
          simp only [isSepDot, Bool.or_eq_false_iff] at this
          exact this.1
        exact ⟨hf.2.2.1, (notSep_facts hnsep).2.1, hf.2.1⟩
  · intro c hc
    have hnsep := camelCaseOfString_notSep s opts c hc
    exact ⟨(notSep_facts hnsep).1, (notSep_facts hnsep).2.1⟩
  · intro c hc
    have hnsep := lenientOfString_notSep s c hc
    exact ⟨(notSep_facts hnsep).1, (notSep_facts hnsep).2.1⟩

/-- C5 (witness): the character `h` of `toKebabCase "Hello World" =
"hello-world"` is not whitespace, not an underscore and not uppercase. -/
theorem claim5_witness :
    isJsSpace 'h' = false ∧ ¬ 'h' = '_' ∧ isAsciiUpper 'h' = false :=
  (claim5 (strL "Hello World") ⟨false⟩).1 'h' (by decide)

/-- C6 (counterexample): the claim says a lowercase-or-digit character
followed by an uppercase character is a token boundary in every variant,
with `"a1B"` tokenizing as `["a1", "B"]`; but `toDotCase` leaves
`"a1B"` as one token (its boundary regex is `([a-z])([A-Z])`, without
digits), and the lenient `toCamelCase` lowercases the whole string
before splitting and so has no camelCase boundary at all. -/
theorem claim6_counterexample :
    ¬ dotWords (strL "a1B") = [strL "a1", strL "B"] ∧
    ¬ lenientWords (strL "a1B") = [strL "a1", strL "B"] := by decide

/-- C6 (amended): a lowercase-or-digit character followed by an
uppercase character is a token boundary in `toKebabCase` and the strict
`toCamelCase` (`"a1B"` tokenizes as `["a1", "B"]`); in `toDotCase` only
a lowercase letter (not a digit) before an uppercase letter is a
boundary (`"aB"` splits, `"a1B"` does not); the lenient `toCamelCase`
has no camelCase boundary (`"a1B"` becomes the single token `"a1b"`). -/
theorem claim6_amended :
    kebabWords (strL "a1B") = [strL "a1", strL "B"] ∧
    camelWords (strL "a1B") = [strL "a1", strL "B"] ∧
    dotWords (strL "aB") = [strL "a", strL "B"] ∧
    dotWords (strL "a1B") = [strL "a1B"] ∧
    lenientWords (strL "aB") = [strL "ab"] ∧
    lenientWords (strL "a1B") = [strL "a1b"] := by decide

/-- C7: a run of two or more uppercase letters followed by an
uppercase-then-lowercase pair is a token boundary: the strict
`toCamelCase` with default options maps `"myHTTPServer"` to
`"myHttpServer"` and `toDotCase` maps it to `"my.http.server"`, both
tokenizing `"HTTPServer"` as `["HTTP", "Server"]`. -/
theorem claim7 :
    Strict.toCamelCase (JSValue.str (strL "myHTTPServer")) {} = .ok (strL "myHttpServer") ∧
    toDotCase (JSValue.str (strL "myHTTPServer")) = .ok (strL "my.http.server") ∧
    splitCamel (strL "HTTPServer") = [strL "HTTP", strL "Server"] ∧
    dotWords (strL "myHTTPServer") = [strL "my", strL "HTTP", strL "Server"] :=
  ⟨congrArg Except.ok (by decide), congrArg Except.ok (by decide), by decide, by decide⟩

/-- C8 (counterexample): the claim says non-ASCII letters are never
stripped, but `toKebabCase` deletes every character outside
`[a-zA-Z0-9\s-]`, so `toKebabCase "café"` is `"caf"` and the `é` does
not appear in the output. -/
theorem claim8_counterexample :
    toKebabCase (JSValue.str (strL "café")) = strL "caf" ∧
    'é' ∈ strL "café" ∧ ¬ 'é' ∈ strL "caf" := by decide

/-- C8 (amended): in the strict `toCamelCase`, the lenient
`toCamelCase` and `toDotCase`, non-ASCII letters are kept in the output
and create no token boundary (`"café"` stays a single token); in
`toKebabCase` they are stripped (`"café"` becomes `"caf"`). -/
theorem claim8_amended :
    toDotCase (JSValue.str (strL "café x")) = .ok (strL "café.x") ∧
    Strict.toCamelCase (JSValue.str (strL "café x")) {} = .ok (strL "caféX") ∧
    Lenient.toCamelCase (JSValue.str (strL "café x")) = strL "caféX" ∧
    dotWords (strL "café") = [strL "café"] ∧
    camelWords (strL "café") = [strL "café"] ∧
    lenientWords (strL "café") = [strL "café"] ∧
    toKebabCase (JSValue.str (strL "café")) = strL "caf" :=
  ⟨congrArg Except.ok (by decide), congrArg Except.ok (by decide), by decide, by decide,
    by decide, by decide, by decide⟩

/-- C9: on every string input each of the four conversions terminates
and produces a string — the strict variants return `Except.ok` of the
total string pipeline (the only `Except.error` arises from the
non-string type check), and the lenient variants are total string
functions. -/
theorem claim9 (s : Str) (opts : Options) :
    Strict.toCamelCase (JSValue.str s) opts = .ok (camelCaseOfString s opts) ∧
    toDotCase (JSValue.str s) = .ok (dotOfString s) ∧
    toKebabCase (JSValue.str s) = kebabOfString s ∧
    Lenient.toCamelCase (JSValue.str s) = lenientOfString s :=
  ⟨rfl, rfl, rfl, rfl⟩

/-- C10: for every input value, the output of `toKebabCase` consists
only of lowercase ASCII letters, digits and hyphens, with no leading,
trailing or consecutive hyphen; for every string input, the output of
`toDotCase` has no leading, trailing or consecutive dot. -/
theorem claim10 :
    (∀ v : JSValue,
      (∀ c ∈ toKebabCase v, isKebabWordChar c = true ∨ c = '-') ∧
      noLeadSep '-' (toKebabCase v) = true ∧
      noTrailSep '-' (toKebabCase v) = true ∧
      noConsec '-' (toKebabCase v) = true) ∧
    (∀ s : Str,
      noLeadSep '.' (dotOfString s) = true ∧
      noTrailSep '.' (dotOfString s) = true ∧
      noConsec '.' (dotOfString s) = true) := by
  constructor
  · have hgen : ∀ (s : Str),
        (∀ c ∈ kebabOfString s, isKebabWordChar c = true ∨ c = '-') ∧
        noLeadSep '-' (kebabOfString s) = true ∧
        noTrailSep '-' (kebabOfString s) = true ∧
        noConsec '-' (kebabOfString s) = true := by
      intro s
      rcases kebabOfString_shape s with h | ⟨ws, hne, hall, heq⟩
      · rw [h]
        exact ⟨fun c hc => absurd hc (List.not_mem_nil c), rfl, rfl, rfl⟩
      · rw [heq]
        have hfree : ∀ w ∈ ws, w ≠ [] ∧ ∀ c ∈ w, ¬ c = '-' := fun w hw =>
          ⟨(hall w hw).1, fun c hc =>
            (notSep_facts (kebabWordChar_facts ((hall w hw).2 c hc)).2.2.1).2.2.1⟩
        obtain ⟨h1, h2, h3⟩ := joinWith_wf hne hfree
        refine ⟨?_, h1, h2, h3⟩
        intro c hc
        rcases mem_joinWith hc with hd | ⟨w, hw, hcw⟩
        · right; exact hd
        · left; exact (hall w hw).2 c hcw
    intro v
    cases v with
    | str s => exact hgen s
    | num n => exact ⟨fun c hc => absurd hc (List.not_mem_nil c), rfl, rfl, rfl⟩
    | boolean b => exact ⟨fun c hc => absurd hc (List.not_mem_nil c), rfl, rfl, rfl⟩
    | null => exact ⟨fun c hc => absurd hc (List.not_mem_nil c), rfl, rfl, rfl⟩
    | undefined => exact ⟨fun c hc => absurd hc (List.not_mem_nil c), rfl, rfl, rfl⟩
  · intro s
    rcases dotOfString_shape s with h | ⟨ws, hne, hall, heq⟩
    · rw [h]
      exact ⟨rfl, rfl, rfl⟩
    · rw [heq]
      have hfree : ∀ w ∈ ws, w ≠ [] ∧ ∀ c ∈ w, ¬ c = '.' := fun w hw =>
        ⟨(hall w hw).1, fun c hc =>
          (dotWordChar_facts ((hall w hw).2 c hc)).2.2.2.2⟩
      exact joinWith_wf hne hfree

/-- C10 (witness): the character `h` of `toKebabCase "Hello World"` is a
kebab word character. -/
theorem claim10_witness :
    isKebabWordChar 'h' = true ∨ 'h' = '-' :=
  (claim10.1 (JSValue.str (strL "Hello World"))).1 'h' (by decide)

end CaseConv
